import Mathlib

/-!
Verification of the CMPE-255 dimensionality-reduction / LSH notebook.

The first part embeds the PCA helper functions `percvar` and `perck` defined
in the notebook itself.  The second part models the LSH library (`lsh.py`,
imported by the notebook but whose source is not in the repository snapshot)
from the specification document.
-/

namespace DR

/-- Embedding of the notebook's `perck(s, p)`:
`for i in range(len(s)): if s[i] >= p: return i+1` and `return len(s)`
when the loop falls through. -/
def perck : List ℚ → ℚ → ℕ
  | [], _ => 0
  | a :: t, p => if p ≤ a then 1 else perck t p + 1

/-- Cumulative prefix sums, the embedding of `np.cumsum`:
`cumsum [a, b, c] = [a, a+b, a+b+c]`. -/
def cumsum : List ℚ → List ℚ
  | [] => []
  | a :: t => a :: (cumsum t).map (fun x => a + x)

/-- Embedding of the notebook's `percvar(v)`: sort the absolute values
ascending (`np.sort(np.abs(v))`), reverse to get non-increasing order
(`s[::-1]`), normalize by the total sum (`s/np.sum(s)`), and return the
normalized vector together with its cumulative prefix sums (`np.cumsum(s)`). -/
def percvar (v : List ℚ) : List ℚ × List ℚ :=
  let s0 := ((v.map (fun x => |x|)).insertionSort (fun a b => a ≤ b)).reverse
  let s := s0.map (fun x => x / s0.sum)
  (s, cumsum s)

/-!
LSH model.  The LSH library `lsh.py` is imported by the notebook
(`from lsh import clsh, jlsh, generateSamples, findNeighborsBrute, recall`)
but its source is not part of this repository snapshot; the definitions
below are modelled from the specification document (sections 2-4 and 6).
-/

/-- A dense feature vector.  Components are modelled as integers: the hash
families and every claim under verification depend only on ring and order
operations on components, and integer components keep the sign tests of the
hash codes kernel-decidable on concrete inputs. -/
abbrev Vec := List ℤ

/-- Modelled from the spec (§5, §9): a deterministic, seedable pseudo-random
source (a linear congruential generator); the spec requires all randomness to
be drawn from an explicitly passed seed, never from implicit global state. -/
def lcg (x : ℕ) : ℕ := (1103515245 * x + 12345) % 2147483648

/-- Derived seed of hash function `j` of table `i`: tables and functions draw
independent randomness deterministically from the explicitly passed master
seed. -/
def fnSeed (seed i j : ℕ) : ℕ := lcg (seed + 1000003 * i + 7919 * j)

/-- Pseudo-random component in `[-1000, 1000]`: the `j`-th component drawn
from seed `s`. -/
def randComp (s j : ℕ) : ℤ := ((lcg (s + j)) % 2001 : ℕ) - 1000

/-- Modelled from the spec (§4.1, cosine family): the function parameters are
a random direction of the input dimensionality, drawn from the given seed.
The unit-length normalization of the spec is omitted: it cannot change the
sign of the dot product, which is the only thing the hash code uses. -/
def drawCosine (dim seed : ℕ) : Vec := (List.range dim).map (randComp seed)

/-- Dot product of two dense vectors. -/
def dot : Vec → Vec → ℤ
  | [], _ => 0
  | _, [] => 0
  | a :: as, b :: bs => a * b + dot as bs

/-- Modelled from the spec (§4.1): the cosine-family hash code of a vector,
the sign of `dot(params, vector)` mapped to `{0, 1}`. -/
def cosineCode (r v : Vec) : ℕ := if 0 ≤ dot r v then 1 else 0

/-- Modelled from the spec (§3): a Table owns an ordered sequence of
independently drawn hash functions (here: cosine direction parameters). -/
structure Table where
  funcs : List Vec
deriving DecidableEq

/-- Modelled from the spec (§3): an Index owns the dataset, an ordered
sequence of independently built Tables, and the family-appropriate exact
similarity function used to rank candidates.  The similarity function is a
parameter of the model: every claim under verification is uniform in the
family, and true cosine similarity is irrational over rational vectors. -/
structure Index where
  data : List Vec
  tables : List Table
  sim : Vec → Vec → ℚ

/-- Signature of a vector in one table: the composite bucket key, one entry
per function, the per-function codes concatenated in function order. -/
def tableSig (t : Table) (v : Vec) : List ℕ :=
  t.funcs.map (fun r => cosineCode r v)

/-- Bucket of one table under a composite key: the IDs of all dataset vectors
whose signature equals the key. -/
def bucket (d : List Vec) (t : Table) (key : List ℕ) : List ℕ :=
  (List.range d.length).filter (fun i => decide (tableSig t (d.getD i []) = key))

/-- Candidates of one table for a query: all IDs sharing the query's bucket
key. -/
def tableCands (d : List Vec) (t : Table) (q : Vec) : List ℕ :=
  bucket d t (tableSig t q)

/-- Union, deduplicated, of the per-table candidate sets of a query. -/
def candUnion (I : Index) (q : Vec) : List ℕ :=
  (I.tables.flatMap (fun t => tableCands I.data t q)).dedup

/-- Number of exact similarity evaluations charged to the `nsims` counter for
one query: each unique candidate is scored exactly once. -/
def nsimsQuery (I : Index) (q : Vec) : ℕ := (candUnion I q).length

/-- Ranking order on scored pairs `(vector ID, similarity)`: descending
similarity, ties broken by ascending vector ID. -/
def rankLe (a b : ℕ × ℚ) : Prop := b.2 < a.2 ∨ (a.2 = b.2 ∧ a.1 ≤ b.1)

/-- Strict version of the ranking order. -/
def rankLt (a b : ℕ × ℚ) : Prop := b.2 < a.2 ∨ (a.2 = b.2 ∧ a.1 < b.1)

instance : DecidableRel rankLe := fun a b => by unfold rankLe; infer_instance

instance : DecidableRel rankLt := fun a b => by unfold rankLt; infer_instance

/-- Score a list of candidate IDs against a query, using a similarity
function and the dataset. -/
def scoreIds (sim : Vec → Vec → ℚ) (d : List Vec) (q : Vec) (ids : List ℕ) :
    List (ℕ × ℚ) :=
  ids.map (fun i => (i, sim q (d.getD i [])))

/-- Top-k selection: sort by descending similarity, ties broken by ascending
vector ID, then truncate to `k`. -/
def topk (l : List (ℕ × ℚ)) (k : ℕ) : List (ℕ × ℚ) :=
  (l.insertionSort rankLe).take k

/-- Modelled from the spec (§4.3, `findNeighbors` on a single query): union
the candidate sets across tables, score each unique candidate exactly once,
sort descending by similarity with ties by ascending ID, truncate to `k`.
An empty candidate union yields an empty ranked list. -/
def queryResult (I : Index) (q : Vec) (k : ℕ) : List (ℕ × ℚ) :=
  topk (scoreIds I.sim I.data q (candUnion I q)) k

/-- Modelled from the spec: `findNeighbors(queries, k)` maps each query to
its ranked result list. -/
def findNeighbors (I : Index) (queries : List Vec) (k : ℕ) :
    List (List (ℕ × ℚ)) :=
  queries.map (fun q => queryResult I q k)

/-- Modelled from the spec (§6, oracle): brute-force exact top-k over the
whole dataset, using the same similarity function and the same ranking
order as the index. -/
def findNeighborsBrute (d : List Vec) (sim : Vec → Vec → ℚ)
    (queries : List Vec) (k : ℕ) : List (List (ℕ × ℚ)) :=
  queries.map (fun q => topk (scoreIds sim d q (List.range d.length)) k)

/-- Vector IDs of a ranked result list. -/
def resultIds (res : List (ℕ × ℚ)) : List ℕ := res.map Prod.fst

/-- Modelled from the spec (§6, `recall`): mean over queries of
`|approx ∩ exact| / k`. -/
def meanRecall (approx exact : List (List (ℕ × ℚ))) (k : ℕ) : ℚ :=
  (((approx.zip exact).map
      (fun p => (((resultIds p.1 ∩ resultIds p.2)).length : ℚ) / k)).sum)
    / (approx.length : ℚ)

/-- Mean per-query candidate-set size over a set of queries; by C2 this is
also the mean per-query evaluation cost counted in `nsims`. -/
def meanCandSize (I : Index) (queries : List Vec) : ℚ :=
  ((queries.map (fun q => (nsimsQuery I q : ℚ))).sum) / (queries.length : ℚ)

/-- Modelled from the spec (§4.2): a Table draws `F` independent functions
from the seedable source; function `j` of table `i` depends only on the
master seed and on `(i, j)`, per the reproducibility requirement (§5). -/
def mkTable (dim F seed i : ℕ) : Table :=
  ⟨(List.range F).map (fun j => drawCosine dim (fnSeed seed i j))⟩

/-- Dimensionality of a dataset: the width of its vectors. -/
def dimOf (d : List Vec) : ℕ := (d.headD []).length

/-- Modelled from the spec (§6): `buildIndex(dataset, ntables, nfunctions,
family, seed)`; the family's exact similarity function is the `sim`
argument, and all randomness derives from the explicitly passed `seed`. -/
def buildIndex (d : List Vec) (T F seed : ℕ) (sim : Vec → Vec → ℚ) : Index :=
  ⟨d, (List.range T).map (mkTable (dimOf d) F seed), sim⟩

/-- Exposed `Index.hash(vector, tableID, functionID)`: the code of one
stored function on a vector. -/
def Index.hash (I : Index) (v : Vec) (tid fid : ℕ) : ℕ :=
  cosineCode (((I.tables.getD tid ⟨[]⟩).funcs).getD fid []) v

/-- Exposed `Index.signature(vector, tableID)`: deterministic recomputation
of the composite bucket key using the stored functions of one table. -/
def Index.signature (I : Index) (v : Vec) (tid : ℕ) : List ℕ :=
  tableSig (I.tables.getD tid ⟨[]⟩) v

theorem sum_map_div (l : List ℚ) (c : ℚ) :
    (l.map (fun x => x / c)).sum = l.sum / c := by
  induction l with
  | nil => simp
  | cons a t ih => simp [ih, add_div]

theorem getLast?_map (f : ℚ → ℚ) :
    ∀ l : List ℚ, (l.map f).getLast? = Option.map f l.getLast?
  | [] => rfl
  | [_] => rfl
  | a :: b :: t => by
    rw [List.map_cons, List.map_cons, List.getLast?_cons_cons,
      List.getLast?_cons_cons, ← List.map_cons, getLast?_map f (b :: t)]

theorem cumsum_getLast? :
    ∀ l : List ℚ, l ≠ [] → (cumsum l).getLast? = some l.sum
  | [], hl => absurd rfl hl
  | [a], _ => by simp [cumsum]
  | a :: b :: t, _ => by
    have ih := cumsum_getLast? (b :: t) (by simp)
    have h1 : cumsum (a :: b :: t)
        = a :: ((cumsum (b :: t)).map (fun x => a + x)) := rfl
    have h2 : cumsum (b :: t) = b :: ((cumsum t).map (fun x => b + x)) := rfl
    rw [h1, h2, List.map_cons, List.getLast?_cons_cons, ← List.map_cons, ← h2,
      getLast?_map, ih]
    simp [add_assoc]

theorem mem_bucket {d : List Vec} {t : Table} {key : List ℕ} {i : ℕ} :
    i ∈ bucket d t key ↔ i < d.length ∧ tableSig t (d.getD i []) = key := by
  simp [bucket, List.mem_filter, List.mem_range]

theorem candUnion_lt_length (I : Index) (q : Vec) :
    ∀ i ∈ candUnion I q, i < I.data.length := by
  intro i hi
  rw [candUnion, List.mem_dedup] at hi
  obtain ⟨t, -, hit⟩ := List.mem_flatMap.mp hi
  exact (mem_bucket.mp hit).1

theorem nodup_candUnion (I : Index) (q : Vec) : (candUnion I q).Nodup :=
  List.nodup_dedup _

theorem rankLe_of_ne (a b : ℕ × ℚ) (h1 : rankLe a b) (h2 : a.1 ≠ b.1) :
    rankLt a b := by
  rcases h1 with h | ⟨he, hl⟩
  · exact Or.inl h
  · exact Or.inr ⟨he, lt_of_le_of_ne hl h2⟩

theorem rankLt_asymm (a b : ℕ × ℚ) (h : rankLt a b) : ¬ rankLt b a := by
  rcases h with h | ⟨he, hl⟩
  · rintro (h' | ⟨he', -⟩)
    · exact lt_asymm h h'
    · exact (ne_of_lt h) he'
  · rintro (h' | ⟨-, hl'⟩)
    · exact (ne_of_lt h') he
    · omega

theorem rankLt_irrefl (a : ℕ × ℚ) : ¬ rankLt a a := by
  rintro (h | ⟨-, h⟩)
  · exact lt_irrefl _ h
  · exact lt_irrefl _ h

instance : IsTotal (ℕ × ℚ) rankLe :=
  ⟨fun a b => by
    rcases lt_trichotomy a.2 b.2 with h | h | h
    · exact Or.inr (Or.inl h)
    · rcases Nat.le_total a.1 b.1 with h' | h'
      · exact Or.inl (Or.inr ⟨h, h'⟩)
      · exact Or.inr (Or.inr ⟨h.symm, h'⟩)
    · exact Or.inl (Or.inl h)⟩

instance : IsTrans (ℕ × ℚ) rankLe :=
  ⟨fun a b c hab hbc => by
    rcases hab with h | ⟨he, hl⟩
    · rcases hbc with h' | ⟨he', -⟩
      · exact Or.inl (lt_trans h' h)
      · exact Or.inl (he' ▸ h)
    · rcases hbc with h' | ⟨he', hl'⟩
      · exact Or.inl (he ▸ h')
      · exact Or.inr ⟨he.trans he', hl.trans hl'⟩⟩

theorem pairwise_rankLt_sort (l : List (ℕ × ℚ))
    (hn : (l.map Prod.fst).Nodup) :
    (l.insertionSort rankLe).Pairwise rankLt := by
  have hs : (l.insertionSort rankLe).Pairwise rankLe :=
    List.sorted_insertionSort rankLe l
  have hperm : (l.insertionSort rankLe).Perm l := List.perm_insertionSort rankLe l
  have hn' : ((l.insertionSort rankLe).map Prod.fst).Nodup :=
    (hperm.map Prod.fst).nodup_iff.mpr hn
  have hne : (l.insertionSort rankLe).Pairwise (fun a b => a.1 ≠ b.1) :=
    List.pairwise_map.mp hn'
  exact (hs.and hne).imp (fun hab => rankLe_of_ne _ _ hab.1 hab.2)

theorem scoreIds_map_fst (sim : Vec → Vec → ℚ) (d : List Vec) (q : Vec)
    (ids : List ℕ) : (scoreIds sim d q ids).map Prod.fst = ids := by
  induction ids with
  | nil => rfl
  | cons a t ih => simpa [scoreIds] using ih

/-- Claim C1: for every index, query and `k`, the ranked result list has
length at most `k`, every returned vector ID is a valid index into the
dataset, and the list is sorted by descending similarity with ties broken by
ascending vector ID. -/
theorem queryResult_valid (I : Index) (q : Vec) (k : ℕ) :
    (queryResult I q k).length ≤ k
    ∧ (∀ p ∈ queryResult I q k, p.1 < I.data.length)
    ∧ (queryResult I q k).Pairwise rankLt := by
  refine ⟨List.length_take_le _ _, ?_, ?_⟩
  · intro p hp
    have hp1 : p ∈ (scoreIds I.sim I.data q (candUnion I q)).insertionSort rankLe :=
      List.take_subset _ _ hp
    have hp2 : p ∈ scoreIds I.sim I.data q (candUnion I q) :=
      (List.perm_insertionSort _ _).subset hp1
    obtain ⟨i, hi, rfl⟩ := List.mem_map.mp hp2
    exact candUnion_lt_length I q i hi
  · have hn : ((scoreIds I.sim I.data q (candUnion I q)).map Prod.fst).Nodup := by
      rw [scoreIds_map_fst]
      exact nodup_candUnion I q
    exact (pairwise_rankLt_sort _ hn).sublist (List.take_sublist _ _)

/-- Claim C2: every unique candidate in the union across tables is scored
exactly once (the candidate union carries no duplicates), so the number of
similarity evaluations charged to `nsims` for one query never exceeds the
dataset size, the brute-force cost. -/
theorem nsims_le_bruteforce (I : Index) (q : Vec) :
    (candUnion I q).Nodup ∧ nsimsQuery I q ≤ I.data.length := by
  refine ⟨nodup_candUnion I q, ?_⟩
  have hsub : candUnion I q ⊆ List.range I.data.length := fun i hi =>
    List.mem_range.mpr (candUnion_lt_length I q i hi)
  have hle := ((nodup_candUnion I q).subperm hsub).length_le
  simpa [nsimsQuery] using hle

/-- Claim C4: `buildIndex` takes an explicitly passed seed and draws all
randomness from it, so two constructions with equal seed and parameters
produce identical signatures for every vector and every table. -/
theorem buildIndex_deterministic (d : List Vec) (T F : ℕ) (s1 s2 : ℕ)
    (sim1 sim2 : Vec → Vec → ℚ) (h : s1 = s2) (v : Vec) (tid : ℕ) :
    (buildIndex d T F s1 sim1).signature v tid
      = (buildIndex d T F s2 sim2).signature v tid := by
  subst h; rfl

/-- Witness for C4 at a concrete seed and dataset. -/
theorem buildIndex_deterministic_witness :
    (0 : ℕ) = 0
    ∧ (buildIndex [[(1 : ℤ)]] 2 2 0 (fun _ _ => 0)).signature [(1 : ℤ)] 0
      = (buildIndex [[(1 : ℤ)]] 2 2 0 (fun _ _ => 1)).signature [(1 : ℤ)] 0 :=
  ⟨rfl, buildIndex_deterministic [[(1 : ℤ)]] 2 2 0 0 _ _ rfl [(1 : ℤ)] 0⟩

/-- Claim C8: a query whose candidate union across all tables is empty gets
an empty ranked list as a normal outcome; no brute-force fallback occurs. -/
theorem emptyCandidates_emptyResult (I : Index) (q : Vec) (k : ℕ)
    (h : candUnion I q = []) : queryResult I q k = [] := by
  simp [queryResult, topk, scoreIds, h]

/-- Witness for C8: a concrete one-vector index and a query hashing to the
opposite bucket. -/
theorem emptyCandidates_emptyResult_witness :
    candUnion (buildIndex [[(1 : ℤ)]] 1 1 0 (fun _ _ => 0)) [(-1 : ℤ)] = []
    ∧ queryResult (buildIndex [[(1 : ℤ)]] 1 1 0 (fun _ _ => 0)) [(-1 : ℤ)] 5 = [] :=
  ⟨by decide, emptyCandidates_emptyResult _ _ 5 (by decide)⟩

theorem tables_getD (d : List Vec) (T F seed : ℕ) (sim : Vec → Vec → ℚ)
    {tid : ℕ} (htid : tid < T) :
    (buildIndex d T F seed sim).tables.getD tid ⟨[]⟩
      = mkTable (dimOf d) F seed tid := by
  have hlen : tid < ((List.range T).map (mkTable (dimOf d) F seed)).length := by
    simpa using htid
  show ((List.range T).map (mkTable (dimOf d) F seed)).getD tid ⟨[]⟩ = _
  rw [List.getD_eq_getElem _ _ hlen, List.getElem_map, List.getElem_range]

theorem funcs_getD (dim F seed i : ℕ) {fid : ℕ} (hfid : fid < F) :
    (mkTable dim F seed i).funcs.getD fid []
      = drawCosine dim (fnSeed seed i fid) := by
  have hlen : fid <
      ((List.range F).map (fun j => drawCosine dim (fnSeed seed i j))).length := by
    simpa using hfid
  show ((List.range F).map (fun j => drawCosine dim (fnSeed seed i j))).getD fid []
      = _
  rw [List.getD_eq_getElem _ _ hlen, List.getElem_map, List.getElem_range]

/-- Claim C7: for every vector and every table of a built index, the
signature is exactly the concatenation of the per-function hash codes
`hash(v, tableID, functionID)` in function order. -/
theorem signature_eq_hash_concat (d : List Vec) (T F seed : ℕ)
    (sim : Vec → Vec → ℚ) (v : Vec) (tid : ℕ) (htid : tid < T) :
    (buildIndex d T F seed sim).signature v tid
      = (List.range F).map
          (fun fid => (buildIndex d T F seed sim).hash v tid fid) := by
  unfold Index.signature Index.hash
  rw [tables_getD d T F seed sim htid]
  have h1 : tableSig (mkTable (dimOf d) F seed tid) v
      = (List.range F).map
          (fun fid => cosineCode (drawCosine (dimOf d) (fnSeed seed tid fid)) v) := by
    unfold tableSig mkTable
    rw [List.map_map]
    rfl
  rw [h1]
  apply List.map_congr_left
  intro fid hfid
  rw [funcs_getD (dimOf d) F seed tid (List.mem_range.mp hfid)]

/-- Witness for C7 at a concrete index. -/
theorem signature_eq_hash_concat_witness :
    0 < 1
    ∧ (buildIndex [[(1 : ℤ)]] 1 2 0 (fun _ _ => 0)).signature [(1 : ℤ)] 0
      = (List.range 2).map
          (fun fid => (buildIndex [[(1 : ℤ)]] 1 2 0 (fun _ _ => 0)).hash [(1 : ℤ)] 0 fid) :=
  ⟨Nat.one_pos,
    signature_eq_hash_concat [[(1 : ℤ)]] 1 2 0 (fun _ _ => 0) [(1 : ℤ)] 0 Nat.one_pos⟩

/-- Claim C3: in every table of a built index, each vector ID lies in the
bucket of its own signature and in no other bucket, so the buckets of each
table partition the dataset; with a single cosine function per table, the
buckets keyed `[0]` and `[1]` together contain exactly the whole dataset. -/
theorem buckets_partition (d : List Vec) (T F seed : ℕ) (sim : Vec → Vec → ℚ)
    (t : Table) (ht : t ∈ (buildIndex d T F seed sim).tables) :
    (∀ i, i < d.length →
      ∀ key, i ∈ bucket d t key ↔ key = tableSig t (d.getD i []))
    ∧ (F = 1 →
      (bucket d t [0]).length + (bucket d t [1]).length = d.length) := by
  constructor
  · intro i hi key
    rw [mem_bucket]
    constructor
    · rintro ⟨-, h⟩; exact h.symm
    · rintro rfl; exact ⟨hi, rfl⟩
  · rintro rfl
    obtain ⟨j, -, rfl⟩ : ∃ j, j < T ∧ mkTable (dimOf d) 1 seed j = t := by
      have hmem : t ∈ (List.range T).map (mkTable (dimOf d) 1 seed) := ht
      obtain ⟨j, hj1, hj2⟩ := List.mem_map.mp hmem
      exact ⟨j, List.mem_range.mp hj1, hj2⟩
    have hfuncs : (mkTable (dimOf d) 1 seed j).funcs
        = [drawCosine (dimOf d) (fnSeed seed j 0)] := by
      simp [mkTable, List.range_succ, List.range_zero]
    have hsig : ∀ v : Vec, tableSig (mkTable (dimOf d) 1 seed j) v
        = [cosineCode (drawCosine (dimOf d) (fnSeed seed j 0)) v] := by
      intro v; rw [tableSig, hfuncs]; rfl
    have hcode : ∀ v : Vec,
        cosineCode (drawCosine (dimOf d) (fnSeed seed j 0)) v = 0
        ∨ cosineCode (drawCosine (dimOf d) (fnSeed seed j 0)) v = 1 := by
      intro v; unfold cosineCode; split
      · exact Or.inr rfl
      · exact Or.inl rfl
    rw [bucket, bucket, ← List.countP_eq_length_filter,
      ← List.countP_eq_length_filter]
    have hcongr : List.countP
        (fun i => decide (tableSig (mkTable (dimOf d) 1 seed j) (d.getD i []) = [1]))
        (List.range d.length)
        = List.countP
          (fun i => decide ¬ (decide
            (tableSig (mkTable (dimOf d) 1 seed j) (d.getD i []) = [0]) = true))
          (List.range d.length) := by
      apply List.countP_congr
      intro i _
      rw [hsig]
      rcases hcode (d.getD i []) with h | h <;> rw [h] <;> simp
    rw [hcongr, ← List.length_eq_countP_add_countP, List.length_range]

/-- Witness for C3 at a concrete one-vector index with one table and one
function. -/
theorem buckets_partition_witness :
    (mkTable (dimOf [[(1 : ℤ)]]) 1 0 0
        ∈ (buildIndex [[(1 : ℤ)]] 1 1 0 (fun _ _ => 0)).tables)
    ∧ ((∀ i, i < [[(1 : ℤ)]].length → ∀ key,
          i ∈ bucket [[(1 : ℤ)]] (mkTable (dimOf [[(1 : ℤ)]]) 1 0 0) key
            ↔ key = tableSig (mkTable (dimOf [[(1 : ℤ)]]) 1 0 0)
                ([[(1 : ℤ)]].getD i []))
      ∧ (1 = 1 →
        (bucket [[(1 : ℤ)]] (mkTable (dimOf [[(1 : ℤ)]]) 1 0 0) [0]).length
          + (bucket [[(1 : ℤ)]] (mkTable (dimOf [[(1 : ℤ)]]) 1 0 0) [1]).length
          = [[(1 : ℤ)]].length)) :=
  ⟨by decide,
    buckets_partition [[(1 : ℤ)]] 1 1 0 (fun _ _ => 0) _ (by decide)⟩

theorem buildIndex_tables (d : List Vec) (T F seed : ℕ) (sim : Vec → Vec → ℚ) :
    (buildIndex d T F seed sim).tables
      = (List.range T).map (mkTable (dimOf d) F seed) := rfl

theorem mkTable_funcs_take (dim seed i : ℕ) {F1 F2 : ℕ} (h : F1 ≤ F2) :
    (mkTable dim F1 seed i).funcs = ((mkTable dim F2 seed i).funcs).take F1 := by
  unfold mkTable
  rw [← List.map_take, List.take_range, Nat.min_eq_left h]

theorem tableSig_take {t2 : Table} {F1 : ℕ} (t1 : Table)
    (h : t1.funcs = t2.funcs.take F1) (v : Vec) :
    tableSig t1 v = (tableSig t2 v).take F1 := by
  unfold tableSig
  rw [h, List.map_take]

theorem tableCands_anti (d : List Vec) (t1 t2 : Table) (F1 : ℕ)
    (h : t1.funcs = t2.funcs.take F1) (q : Vec) :
    tableCands d t2 q ⊆ tableCands d t1 q := by
  intro i hi
  rw [tableCands, mem_bucket] at hi ⊢
  obtain ⟨hlen, hsig⟩ := hi
  refine ⟨hlen, ?_⟩
  rw [tableSig_take t1 h (d.getD i []), hsig, ← tableSig_take t1 h q]

theorem candUnion_anti_functions (d : List Vec) (T seed : ℕ)
    (sim : Vec → Vec → ℚ) {F1 F2 : ℕ} (h : F1 ≤ F2) (q : Vec) :
    candUnion (buildIndex d T F2 seed sim) q
      ⊆ candUnion (buildIndex d T F1 seed sim) q := by
  intro x hx
  rw [candUnion, List.mem_dedup] at hx ⊢
  obtain ⟨t, ht, hxt⟩ := List.mem_flatMap.mp hx
  rw [buildIndex_tables] at ht
  obtain ⟨j, hj, rfl⟩ := List.mem_map.mp ht
  refine List.mem_flatMap.mpr ⟨mkTable (dimOf d) F1 seed j, ?_, ?_⟩
  · rw [buildIndex_tables]
    exact List.mem_map.mpr ⟨j, hj, rfl⟩
  · exact tableCands_anti d _ _ F1 (mkTable_funcs_take (dimOf d) seed j h) q hxt

theorem div_le_div_nonneg_den {a b : ℚ} (h : a ≤ b) (c : ℚ) (hc : 0 ≤ c) :
    a / c ≤ b / c := by
  rcases eq_or_lt_of_le hc with hc0 | hpos
  · rw [← hc0, div_zero, div_zero]
  · exact (div_le_div_iff_of_pos_right hpos).mpr h

/-- Claim C6: with the table count fixed, raising the per-table function
count only shrinks each query's candidate union, hence the per-query and
mean candidate-set sizes (the `nsims` evaluation cost) are non-increasing
in `F`. -/
theorem candSize_anti_functions (d : List Vec) (T seed : ℕ)
    (sim : Vec → Vec → ℚ) (F1 F2 : ℕ) (h : F1 ≤ F2) (queries : List Vec) :
    (∀ q, candUnion (buildIndex d T F2 seed sim) q
      ⊆ candUnion (buildIndex d T F1 seed sim) q)
    ∧ (∀ q, nsimsQuery (buildIndex d T F2 seed sim) q
      ≤ nsimsQuery (buildIndex d T F1 seed sim) q)
    ∧ meanCandSize (buildIndex d T F2 seed sim) queries
      ≤ meanCandSize (buildIndex d T F1 seed sim) queries := by
  have hpoint : ∀ q, nsimsQuery (buildIndex d T F2 seed sim) q
      ≤ nsimsQuery (buildIndex d T F1 seed sim) q := by
    intro q
    exact ((nodup_candUnion _ q).subperm
      (candUnion_anti_functions d T seed sim h q)).length_le
  refine ⟨fun q => candUnion_anti_functions d T seed sim h q, hpoint, ?_⟩
  unfold meanCandSize
  apply div_le_div_nonneg_den _ _ (by positivity)
  apply List.sum_le_sum
  intro q _
  exact_mod_cast hpoint q

/-- Witness for C6 at concrete parameters. -/
theorem candSize_anti_functions_witness :
    1 ≤ 2
    ∧ ((∀ q, candUnion (buildIndex [[(1 : ℤ)]] 1 2 0 (fun _ _ => 0)) q
        ⊆ candUnion (buildIndex [[(1 : ℤ)]] 1 1 0 (fun _ _ => 0)) q)
      ∧ (∀ q, nsimsQuery (buildIndex [[(1 : ℤ)]] 1 2 0 (fun _ _ => 0)) q
        ≤ nsimsQuery (buildIndex [[(1 : ℤ)]] 1 1 0 (fun _ _ => 0)) q)
      ∧ meanCandSize (buildIndex [[(1 : ℤ)]] 1 2 0 (fun _ _ => 0)) [[(1 : ℤ)]]
        ≤ meanCandSize (buildIndex [[(1 : ℤ)]] 1 1 0 (fun _ _ => 0)) [[(1 : ℤ)]]) :=
  ⟨by decide,
    candSize_anti_functions [[(1 : ℤ)]] 1 0 (fun _ _ => 0) 1 2 (by decide) [[(1 : ℤ)]]⟩

theorem subperm_map {α β : Type} (f : α → β) {l1 l2 : List α}
    (h : l1.Subperm l2) : (l1.map f).Subperm (l2.map f) := by
  obtain ⟨u, hperm, hsub⟩ := h
  exact ⟨u.map f, hperm.map f, hsub.map f⟩

theorem mem_take_of_sorted (l : List (ℕ × ℚ)) (hl : l.Pairwise rankLt)
    (x : ℕ × ℚ) (k : ℕ) :
    x ∈ l.take k
      ↔ x ∈ l ∧ l.countP (fun y => decide (rankLt y x)) < k := by
  induction l generalizing k with
  | nil => simp
  | cons a t ih =>
    cases k with
    | zero => simp
    | succ k' =>
      rw [List.take_succ_cons]
      have hpa : ∀ y ∈ t, rankLt a y := (List.pairwise_cons.mp hl).1
      have hpt : t.Pairwise rankLt := (List.pairwise_cons.mp hl).2
      by_cases hxa : x = a
      · subst hxa
        have hcount : (x :: t).countP (fun y => decide (rankLt y x)) = 0 := by
          rw [List.countP_eq_zero]
          intro y hy
          simp only [decide_eq_true_eq]
          rcases List.mem_cons.mp hy with rfl | hyt
          · exact rankLt_irrefl _
          · exact rankLt_asymm _ _ (hpa _ hyt)
        simp [hcount]
      · have hm1 : x ∈ a :: t.take k' ↔ x ∈ t.take k' := by simp [hxa]
        have hm2 : x ∈ a :: t ↔ x ∈ t := by simp [hxa]
        rw [hm1, hm2, ih hpt]
        constructor
        · rintro ⟨hxt, hcount⟩
          refine ⟨hxt, ?_⟩
          rw [List.countP_cons]
          have hax : decide (rankLt a x) = true := decide_eq_true (hpa x hxt)
          rw [hax, if_pos rfl]
          omega
        · rintro ⟨hxt, hcount⟩
          refine ⟨hxt, ?_⟩
          rw [List.countP_cons] at hcount
          have hax : decide (rankLt a x) = true := decide_eq_true (hpa x hxt)
          rw [hax, if_pos rfl] at hcount
          omega

theorem mem_topk_iff (l : List (ℕ × ℚ)) (hn : (l.map Prod.fst).Nodup)
    (x : ℕ × ℚ) (k : ℕ) :
    x ∈ topk l k
      ↔ x ∈ l ∧ l.countP (fun y => decide (rankLt y x)) < k := by
  unfold topk
  have hperm : (l.insertionSort rankLe).Perm l := List.perm_insertionSort rankLe l
  rw [mem_take_of_sorted _ (pairwise_rankLt_sort l hn),
    hperm.mem_iff, hperm.countP_eq]

theorem topk_subset (l : List (ℕ × ℚ)) (k : ℕ) : topk l k ⊆ l := fun _ hx =>
  (List.perm_insertionSort rankLe l).subset (List.take_subset _ _ hx)

theorem mem_resultIds_topk (sim : Vec → Vec → ℚ) (d : List Vec) (q : Vec)
    (ids : List ℕ) (k : ℕ) (i : ℕ) :
    i ∈ resultIds (topk (scoreIds sim d q ids) k)
      ↔ (i, sim q (d.getD i [])) ∈ topk (scoreIds sim d q ids) k := by
  unfold resultIds
  constructor
  · intro hi
    obtain ⟨p, hp, rfl⟩ := List.mem_map.mp hi
    have hp2 : p ∈ scoreIds sim d q ids := topk_subset _ _ hp
    obtain ⟨j, -, rfl⟩ := List.mem_map.mp hp2
    exact hp
  · intro hp
    exact List.mem_map.mpr ⟨_, hp, rfl⟩

theorem nodup_resultIds_topk (sim : Vec → Vec → ℚ) (d : List Vec) (q : Vec)
    (ids : List ℕ) (hn : ids.Nodup) (k : ℕ) :
    (resultIds (topk (scoreIds sim d q ids) k)).Nodup := by
  have hn1 : ((scoreIds sim d q ids).map Prod.fst).Nodup := by
    rw [scoreIds_map_fst]; exact hn
  have hn2 : (((scoreIds sim d q ids).insertionSort rankLe).map Prod.fst).Nodup :=
    ((List.perm_insertionSort rankLe _).map Prod.fst).nodup_iff.mpr hn1
  exact ((List.take_sublist _ _).map Prod.fst).nodup hn2

theorem topk_inter_mono (sim : Vec → Vec → ℚ) (d : List Vec) (q : Vec)
    {s1 s2 : List ℕ} (hsub : s1 ⊆ s2) (h2 : s2.Nodup)
    (hval : ∀ i ∈ s2, i < d.length) (k : ℕ) (x : ℕ × ℚ)
    (hn1 : (s1.map id).Nodup)
    (hx1 : x ∈ topk (scoreIds sim d q s1) k)
    (hxu : x ∈ topk (scoreIds sim d q (List.range d.length)) k) :
    x ∈ topk (scoreIds sim d q s2) k := by
  have hfst1 : ((scoreIds sim d q s1).map Prod.fst).Nodup := by
    rw [scoreIds_map_fst]; simpa using hn1
  have hfst2 : ((scoreIds sim d q s2).map Prod.fst).Nodup := by
    rw [scoreIds_map_fst]; exact h2
  have hfstu : ((scoreIds sim d q (List.range d.length)).map Prod.fst).Nodup := by
    rw [scoreIds_map_fst]; exact List.nodup_range _
  rw [mem_topk_iff _ hfst1] at hx1
  rw [mem_topk_iff _ hfstu] at hxu
  rw [mem_topk_iff _ hfst2]
  obtain ⟨hmem1, -⟩ := hx1
  obtain ⟨-, hcountu⟩ := hxu
  constructor
  · obtain ⟨i, hi, rfl⟩ := List.mem_map.mp hmem1
    exact List.mem_map.mpr ⟨i, hsub hi, rfl⟩
  · have hsp : (scoreIds sim d q s2).Subperm
        (scoreIds sim d q (List.range d.length)) := by
      apply subperm_map
      exact h2.subperm (fun i hi => List.mem_range.mpr (hval i hi))
    exact lt_of_le_of_lt (hsp.countP_le _) hcountu

theorem buildIndex_tables_take (d : List Vec) (F seed : ℕ)
    (sim : Vec → Vec → ℚ) {T1 T2 : ℕ} (h : T1 ≤ T2) :
    (buildIndex d T1 F seed sim).tables
      = ((buildIndex d T2 F seed sim).tables).take T1 := by
  rw [buildIndex_tables, buildIndex_tables, ← List.map_take, List.take_range,
    Nat.min_eq_left h]

theorem candUnion_mono_tables (d : List Vec) (F seed : ℕ)
    (sim : Vec → Vec → ℚ) {T1 T2 : ℕ} (h : T1 ≤ T2) (q : Vec) :
    candUnion (buildIndex d T1 F seed sim) q
      ⊆ candUnion (buildIndex d T2 F seed sim) q := by
  intro x hx
  rw [candUnion, List.mem_dedup] at hx ⊢
  obtain ⟨t, ht, hxt⟩ := List.mem_flatMap.mp hx
  rw [buildIndex_tables_take d F seed sim h] at ht
  exact List.mem_flatMap.mpr ⟨t, List.take_subset _ _ ht, hxt⟩

theorem resultIds_inter_mono (sim : Vec → Vec → ℚ) (d : List Vec) (q : Vec)
    {s1 s2 : List ℕ} (hsub : s1 ⊆ s2) (h1 : s1.Nodup) (h2 : s2.Nodup)
    (hval : ∀ i ∈ s2, i < d.length) (k : ℕ) :
    ((resultIds (topk (scoreIds sim d q s1) k))
        ∩ (resultIds (topk (scoreIds sim d q (List.range d.length)) k))).length
    ≤ ((resultIds (topk (scoreIds sim d q s2) k))
        ∩ (resultIds (topk (scoreIds sim d q (List.range d.length)) k))).length := by
  apply List.Subperm.length_le
  apply List.Nodup.subperm
  · exact List.Nodup.inter _ (nodup_resultIds_topk sim d q s1 h1 k)
  · intro i hi
    rw [List.mem_inter_iff] at hi ⊢
    obtain ⟨hi1, hie⟩ := hi
    refine ⟨?_, hie⟩
    rw [mem_resultIds_topk] at hi1 ⊢
    rw [mem_resultIds_topk] at hie
    exact topk_inter_mono sim d q hsub h2 hval k _ (by simpa using h1) hi1 hie

/-- Claim C5: with the per-table function count fixed, adding tables only
ever adds candidates to each query's union, and consequently the measured
recall against the brute-force oracle with `T1` tables is at most the recall
with `T2` tables whenever `T1 <= T2`, on the same dataset, seed and
queries. -/
theorem recall_mono_tables (d : List Vec) (F seed : ℕ) (sim : Vec → Vec → ℚ)
    (T1 T2 : ℕ) (h : T1 ≤ T2) (queries : List Vec) (k : ℕ) :
    (∀ q, candUnion (buildIndex d T1 F seed sim) q
        ⊆ candUnion (buildIndex d T2 F seed sim) q)
    ∧ meanRecall (findNeighbors (buildIndex d T1 F seed sim) queries k)
        (findNeighborsBrute d sim queries k) k
      ≤ meanRecall (findNeighbors (buildIndex d T2 F seed sim) queries k)
        (findNeighborsBrute d sim queries k) k := by
  refine ⟨fun q => candUnion_mono_tables d F seed sim h q, ?_⟩
  unfold meanRecall findNeighbors findNeighborsBrute
  rw [List.zip_map', List.zip_map', List.map_map, List.map_map]
  simp only [List.length_map]
  apply div_le_div_nonneg_den _ _ (by positivity)
  apply List.sum_le_sum
  intro q _
  simp only [Function.comp_apply]
  apply div_le_div_nonneg_den _ _ (by positivity)
  have hmain := resultIds_inter_mono sim d q
    (candUnion_mono_tables d F seed sim h q)
    (nodup_candUnion (buildIndex d T1 F seed sim) q)
    (nodup_candUnion (buildIndex d T2 F seed sim) q)
    (candUnion_lt_length (buildIndex d T2 F seed sim) q) k
  exact_mod_cast hmain

/-- Witness for C5 at concrete parameters. -/
theorem recall_mono_tables_witness :
    1 ≤ 2
    ∧ ((∀ q, candUnion (buildIndex [[(1 : ℤ)]] 1 1 0 (fun _ _ => 0)) q
        ⊆ candUnion (buildIndex [[(1 : ℤ)]] 2 1 0 (fun _ _ => 0)) q)
      ∧ meanRecall
          (findNeighbors (buildIndex [[(1 : ℤ)]] 1 1 0 (fun _ _ => 0)) [[(1 : ℤ)]] 1)
          (findNeighborsBrute [[(1 : ℤ)]] (fun _ _ => 0) [[(1 : ℤ)]] 1) 1
        ≤ meanRecall
          (findNeighbors (buildIndex [[(1 : ℤ)]] 2 1 0 (fun _ _ => 0)) [[(1 : ℤ)]] 1)
          (findNeighborsBrute [[(1 : ℤ)]] (fun _ _ => 0) [[(1 : ℤ)]] 1) 1) :=
  ⟨by decide,
    recall_mono_tables [[(1 : ℤ)]] 1 0 (fun _ _ => 0) 1 2 (by decide) [[(1 : ℤ)]] 1⟩

/-- Claim C9: `perck(s, p)` returns `i+1` for the smallest 0-based index `i`
with `s[i] >= p`, returns `len(s)` when no element of `s` reaches `p`, and in
particular returns `0` on the empty sequence. -/
theorem perck_spec (s : List ℚ) (p : ℚ) :
    (∀ i, i < s.length → p ≤ s.getD i 0 →
      (∀ j, j < i → s.getD j 0 < p) → perck s p = i + 1)
    ∧ ((∀ i, i < s.length → s.getD i 0 < p) → perck s p = s.length)
    ∧ perck [] p = 0 := by
  refine ⟨?_, ?_, rfl⟩
  · induction s with
    | nil => intro i hi; simp at hi
    | cons a t ih =>
      intro i hi hp hmin
      cases i with
      | zero =>
        simp only [List.getD_cons_zero] at hp
        simp [perck, hp]
      | succ i' =>
        have ha : a < p := by simpa using hmin 0 (Nat.succ_pos _)
        have hne : ¬ p ≤ a := not_le.mpr ha
        have ht := ih i' (by simpa using hi) (by simpa using hp)
          (fun j hj => by simpa using hmin (j + 1) (by omega))
        simp [perck, hne, ht]
  · induction s with
    | nil => intro _; rfl
    | cons a t ih =>
      intro hall
      have ha : a < p := by simpa using hall 0 (by simp)
      have hne : ¬ p ≤ a := not_le.mpr ha
      have ht := ih (fun i hi => by simpa using hall (i + 1) (by simpa using hi))
      simp [perck, hne, ht]

/-- Witness for C9 at concrete inputs. -/
theorem perck_spec_witness :
    perck [(1 : ℚ), 3] 2 = 2 ∧ perck ([] : List ℚ) 2 = 0 := by
  constructor
  · exact (perck_spec [(1 : ℚ), 3] 2).1 1 (by norm_num)
      (by norm_num [List.getD])
      (by intro j hj; interval_cases j; norm_num [List.getD])
  · exact (perck_spec ([] : List ℚ) 2).2.2

/-- Claim C10: when the absolute values of `v` have nonzero sum, `percvar v`
returns `(s, c)` where `s` is the absolute values sorted non-increasingly
and divided by their total sum, and `c` is the cumulative prefix-sum of `s`;
consequently `s` sums to `1` and the last entry of `c` is `1`. -/
theorem percvar_spec (v : List ℚ) (h : (v.map (fun x => |x|)).sum ≠ 0) :
    ((percvar v).1).Sorted (fun a b => a ≥ b)
    ∧ ((percvar v).1).Perm
        ((v.map (fun x => |x|)).map (fun x => x / (v.map (fun x => |x|)).sum))
    ∧ (percvar v).2 = cumsum (percvar v).1
    ∧ ((percvar v).1).sum = 1
    ∧ ((percvar v).2).getLast? = some 1 := by
  classical
  set A : List ℚ := v.map (fun x => |x|) with hA
  set s0 : List ℚ := (A.insertionSort (fun a b => a ≤ b)).reverse with hs0
  have hperm0 : s0.Perm A :=
    (List.reverse_perm _).trans (List.perm_insertionSort _ _)
  have hsum0 : s0.sum = A.sum := hperm0.sum_eq
  have hp1 : (percvar v).1 = s0.map (fun x => x / s0.sum) := rfl
  have hp2 : (percvar v).2 = cumsum ((percvar v).1) := rfl
  have hApos : 0 < A.sum := by
    have hnn : 0 ≤ A.sum := by
      apply List.sum_nonneg
      intro x hx
      rw [hA] at hx
      obtain ⟨y, -, rfl⟩ := List.mem_map.mp hx
      exact abs_nonneg y
    exact lt_of_le_of_ne hnn (Ne.symm h)
  have hsort0 : s0.Sorted (fun a b => a ≥ b) := by
    rw [hs0, List.Sorted, List.pairwise_reverse]
    simp only [ge_iff_le]
    exact List.sorted_insertionSort _ _
  have hs0pos : 0 < s0.sum := hsum0 ▸ hApos
  refine ⟨?_, ?_, hp2, ?_, ?_⟩
  · rw [hp1]
    exact hsort0.map _ (fun a b hab => (div_le_div_iff_of_pos_right hs0pos).mpr hab)
  · rw [hp1, hsum0]
    exact hperm0.map _
  · rw [hp1, sum_map_div, hsum0]
    exact div_self h
  · have hvne : v ≠ [] := by
      rintro rfl
      simp [hA] at h
    have hlen : ((percvar v).1).length = v.length := by
      rw [hp1, List.length_map, hperm0.length_eq, hA, List.length_map]
    have hne1 : (percvar v).1 ≠ [] := by
      intro hcon
      rw [hcon] at hlen
      exact hvne (List.length_eq_zero.mp hlen.symm)
    rw [hp2, cumsum_getLast? _ hne1, hp1, sum_map_div, hsum0, div_self h]

/-- Witness for C10 at a concrete input. -/
theorem percvar_spec_witness :
    (([(1 : ℚ), -2].map (fun x => |x|)).sum ≠ 0)
    ∧ (((percvar [(1 : ℚ), -2]).1).Sorted (fun a b => a ≥ b)
    ∧ ((percvar [(1 : ℚ), -2]).1).Perm
        (([(1 : ℚ), -2].map (fun x => |x|)).map
          (fun x => x / ([(1 : ℚ), -2].map (fun x => |x|)).sum))
    ∧ (percvar [(1 : ℚ), -2]).2 = cumsum (percvar [(1 : ℚ), -2]).1
    ∧ ((percvar [(1 : ℚ), -2]).1).sum = 1
    ∧ ((percvar [(1 : ℚ), -2]).2).getLast? = some 1) :=
  ⟨by norm_num, percvar_spec [(1 : ℚ), -2] (by norm_num)⟩

end DR
